import Mathlib

/-!
Verification development for the contextual-agent backend: document chunker,
in-memory vector search, RAG service query path, Redis-backed session store,
and plugin router, shallowly embedded from the TypeScript sources.

JavaScript strings are modelled as `List Char`; numeric similarity scores
(IEEE doubles in the source) are modelled as rationals; fallible calls are
modelled with `Except`; the Redis key-value store is modelled as a function
from keys to optional sessions.
-/

namespace ContextAgent

/-! ## Document chunker (`DocumentProcessor`) -/

/-- Constant `CHUNK_SIZE` of `DocumentProcessor`. -/
def CHUNK_SIZE : Nat := 1000

/-- Constant `CHUNK_OVERLAP` of `DocumentProcessor`. -/
def CHUNK_OVERLAP : Nat := 200

/-- Sentence delimiters of `splitIntoSentences`: the regex class `[.!?]`. -/
def isDelim (c : Char) : Bool := c = '.' || c = '!' || c = '?'

/-- JavaScript `String.prototype.trim`: strip whitespace from both ends. -/
def trimStr (s : List Char) : List Char :=
  ((s.dropWhile Char.isWhitespace).reverse.dropWhile Char.isWhitespace).reverse

/-- Function `DocumentProcessor.splitIntoSentences`: split on `[.!?]+`, trim each
fragment, keep the nonempty ones.  (Splitting at every single delimiter and
then filtering empties agrees with the source's `[.!?]+` regex split.) -/
def splitIntoSentences (text : List Char) : List (List Char) :=
  ((text.splitOnP isDelim).map trimStr).filter (fun s => 0 < s.length)

/-- JavaScript `Array.prototype.join(' ')`. -/
def joinSpace : List (List Char) → List Char
  | [] => []
  | [w] => w
  | w :: ws => w ++ ' ' :: joinSpace ws

/-- JavaScript `words.slice(-n)`: the last `n` elements (all of them when fewer).
The chunker calls this with `n = 33`, never `0`. -/
def takeLast (n : Nat) (xs : List α) : List α := xs.drop (xs.length - n)

/-- The overlap word count `Math.floor(CHUNK_OVERLAP / 6)` = 33. -/
def overlapWordCount : Nat := CHUNK_OVERLAP / 6

/-- Function `DocumentProcessor.applyOverlap`: last `⌊CHUNK_OVERLAP/6⌋` words of the
emitted chunk, joined with spaces, then a space and the next sentence. -/
def applyOverlap (currentChunk nextSentence : List Char) : List Char :=
  joinSpace (takeLast overlapWordCount (currentChunk.splitOnP (fun c => c == ' ')))
    ++ ' ' :: nextSentence

/-- Expression `currentChunk + (currentChunk ? ' ' : '') + sentence` from
`createChunks`. -/
def potentialChunk (current s : List Char) : List Char :=
  if current.isEmpty then s else current ++ ' ' :: s

/-- The sentence-accumulation loop of `DocumentProcessor.createChunks`.
`current` is `currentChunk`, `acc` the chunks pushed so far; a pushed chunk's
content is `currentChunk.trim()` (from `createChunk`). -/
def chunksLoop : List (List Char) → List Char → List (List Char) → List (List Char)
  | [], current, acc =>
    if 0 < (trimStr current).length then acc ++ [trimStr current] else acc
  | s :: rest, current, acc =>
    if CHUNK_SIZE < (potentialChunk current s).length ∧ current.isEmpty = false then
      chunksLoop rest (applyOverlap current s) (acc ++ [trimStr current])
    else
      chunksLoop rest (potentialChunk current s) acc

/-- Function `DocumentProcessor.createChunks`, projected to the chunks' `content`
fields (ids and metadata play no role in the verified properties). -/
def createChunks (text : List Char) : List (List Char) :=
  chunksLoop (splitIntoSentences text) [] []

/-! ### Chunk size bound (C3) -/

theorem trimStr_length_le (s : List Char) : (trimStr s).length ≤ s.length := by
  have h2 := (List.dropWhile_suffix (l := (s.dropWhile Char.isWhitespace).reverse)
    Char.isWhitespace).sublist.length_le
  have h1 := (List.dropWhile_suffix (l := s) Char.isWhitespace).sublist.length_le
  simp only [trimStr, List.length_reverse]
  simp only [List.length_reverse] at h2
  exact h2.trans h1

/-- Shapes `currentChunk` can take when it may exceed `CHUNK_SIZE`: a value
still within the bound, a single over-long sentence seeded into an empty
buffer, or an overlap splice produced by `applyOverlap`. -/
def SeedOk (sents : List (List Char)) (cur : List Char) : Prop :=
  cur.length ≤ CHUNK_SIZE ∨
  (∃ s ∈ sents, cur = s ∧ CHUNK_SIZE < s.length) ∨
  (∃ prev s, s ∈ sents ∧ cur = applyOverlap prev s)

/-- The corresponding classification of an emitted chunk's content. -/
def ChunkOk (sents : List (List Char)) (c : List Char) : Prop :=
  c.length ≤ CHUNK_SIZE ∨
  (∃ s ∈ sents, c = trimStr s ∧ CHUNK_SIZE < s.length) ∨
  (∃ prev s, s ∈ sents ∧ c = trimStr (applyOverlap prev s))

theorem ChunkOk_of_SeedOk {sents : List (List Char)} {cur : List Char}
    (h : SeedOk sents cur) : ChunkOk sents (trimStr cur) := by
  rcases h with h | ⟨s, hs, hcs, hlt⟩ | ⟨prev, s, hs, hcs⟩
  · exact Or.inl ((trimStr_length_le cur).trans h)
  · exact Or.inr (Or.inl ⟨s, hs, by rw [hcs], hlt⟩)
  · exact Or.inr (Or.inr ⟨prev, s, hs, by rw [hcs]⟩)

theorem chunksLoop_chunkOk (sents : List (List Char)) :
    ∀ (rest : List (List Char)) (cur : List Char) (acc : List (List Char)),
      (∀ s ∈ rest, s ∈ sents) → SeedOk sents cur → (∀ c ∈ acc, ChunkOk sents c) →
      ∀ c ∈ chunksLoop rest cur acc, ChunkOk sents c := by
  intro rest
  induction rest with
  | nil =>
    intro cur acc _ hcur hacc c hc
    unfold chunksLoop at hc
    split at hc
    · rcases List.mem_append.1 hc with h | h
      · exact hacc c h
      · rw [List.mem_singleton.1 h]
        exact ChunkOk_of_SeedOk hcur
    · exact hacc c hc
  | cons s rest ih =>
    intro cur acc hmem hcur hacc c hc
    unfold chunksLoop at hc
    split at hc
    case isTrue h =>
      refine ih (applyOverlap cur s) (acc ++ [trimStr cur]) ?_ ?_ ?_ c hc
      · intro t ht
        exact hmem t (List.mem_cons_of_mem _ ht)
      · exact Or.inr (Or.inr ⟨cur, s, hmem s (List.mem_cons_self _ _), rfl⟩)
      · intro d hd
        rcases List.mem_append.1 hd with h1 | h1
        · exact hacc d h1
        · rw [List.mem_singleton.1 h1]
          exact ChunkOk_of_SeedOk hcur
    case isFalse h =>
      refine ih (potentialChunk cur s) acc ?_ ?_ hacc c hc
      · intro t ht
        exact hmem t (List.mem_cons_of_mem _ ht)
      · by_cases hemp : cur.isEmpty
        · have hps : potentialChunk cur s = s := by
            simp [potentialChunk, hemp]
          rw [hps]
          by_cases hlen : s.length ≤ CHUNK_SIZE
          · exact Or.inl hlen
          · exact Or.inr (Or.inl ⟨s, hmem s (List.mem_cons_self _ _), rfl,
              Nat.lt_of_not_le hlen⟩)
        · have hemp' : cur.isEmpty = false := by
            simpa using hemp
          have hlen : ¬ CHUNK_SIZE < (potentialChunk cur s).length := fun hlt =>
            h ⟨hlt, hemp'⟩
          exact Or.inl (Nat.le_of_not_lt hlen)

/-- C3 (amended): every chunk produced by the chunker either has content
length at most `CHUNK_SIZE`, or is the trim of a single sentence longer than
`CHUNK_SIZE`, or is the trim of an overlap splice (`applyOverlap` output:
up to 33 carried-over words plus one sentence) that was never extended.  The
claim's original exception list (only the single-over-long-sentence case) is
too small: overlap splices may also exceed the bound. -/
theorem createChunks_size_bound_amended (text : List Char) :
    ∀ c ∈ createChunks text,
      c.length ≤ CHUNK_SIZE ∨
      (∃ s ∈ splitIntoSentences text, c = trimStr s ∧ CHUNK_SIZE < s.length) ∨
      (∃ prev s, s ∈ splitIntoSentences text ∧ c = trimStr (applyOverlap prev s)) := by
  intro c hc
  have := chunksLoop_chunkOk (splitIntoSentences text) (splitIntoSentences text) [] []
    (fun _ hs => hs) (Or.inl (by simp [CHUNK_SIZE])) (by simp) c hc
  simpa [ChunkOk] using this

/-- Witness for `createChunks_size_bound_amended` at the document `"hi"`. -/
theorem createChunks_size_bound_witness :
    "hi".toList.length ≤ CHUNK_SIZE ∨
    (∃ s ∈ splitIntoSentences "hi".toList, "hi".toList = trimStr s ∧ CHUNK_SIZE < s.length) ∨
    (∃ prev s, s ∈ splitIntoSentences "hi".toList ∧
      "hi".toList = trimStr (applyOverlap prev s)) :=
  createChunks_size_bound_amended "hi".toList "hi".toList (by decide)

/-- A 500-character single-word sentence. -/
def cexSentence : List Char := List.replicate 500 'a'

/-- A document of two 500-character sentences.  Its second chunk is an
overlap splice of length 1001 > `CHUNK_SIZE`, while every sentence has
length 500 ≤ `CHUNK_SIZE`. -/
def cexDoc : List Char := cexSentence ++ '.' :: ' ' :: cexSentence

set_option maxRecDepth 8000 in
/-- C3 counterexample: on `cexDoc` the chunker emits chunks of lengths
[500, 1001]; the 1001-character chunk exceeds `CHUNK_SIZE` yet no sentence
of the document exceeds `CHUNK_SIZE`, so it does not arise from a single
sentence longer than `CHUNK_SIZE` — refuting the claim as stated. -/
theorem createChunks_size_bound_cex :
    (createChunks cexDoc).map List.length = [500, 1001] ∧
    (∀ s ∈ splitIntoSentences cexDoc, s.length ≤ CHUNK_SIZE) ∧
    ¬ (∀ c ∈ createChunks cexDoc, c.length ≤ CHUNK_SIZE) := by
  decide

/-! ### Delimiter discarding (C10) -/

theorem splitOnP_mem_sound (p : Char → Bool) :
    ∀ (text : List Char), ∀ w ∈ text.splitOnP p, ∀ c ∈ w, p c = false ∧ c ∈ text := by
  intro text
  induction text with
  | nil =>
    intro w hw c hc
    rw [List.splitOnP_nil] at hw
    rw [List.mem_singleton.1 hw] at hc
    exact absurd hc (List.not_mem_nil c)
  | cons a as ih =>
    intro w hw c hc
    rw [List.splitOnP_cons] at hw
    by_cases hpa : p a = true
    · rw [if_pos hpa] at hw
      rcases List.mem_cons.1 hw with hw' | hw'
      · rw [hw'] at hc
        exact absurd hc (List.not_mem_nil c)
      · obtain ⟨h1, h2⟩ := ih w hw' c hc
        exact ⟨h1, List.mem_cons_of_mem _ h2⟩
    · rw [if_neg hpa] at hw
      cases hsp : as.splitOnP p with
      | nil => exact absurd hsp (List.splitOnP_ne_nil _ _)
      | cons w0 ws =>
        rw [hsp] at hw
        simp only [List.modifyHead] at hw
        rcases List.mem_cons.1 hw with hw' | hw'
        · rw [hw'] at hc
          rcases List.mem_cons.1 hc with hc' | hc'
          · rw [hc']
            exact ⟨by simpa using hpa, List.mem_cons_self _ _⟩
          · have h0 := ih w0 (by rw [hsp]; exact List.mem_cons_self _ _) c hc'
            exact ⟨h0.1, List.mem_cons_of_mem _ h0.2⟩
        · have h0 := ih w (by rw [hsp]; exact List.mem_cons_of_mem _ hw') c hc
          exact ⟨h0.1, List.mem_cons_of_mem _ h0.2⟩

theorem trimStr_subset (s : List Char) : ∀ c ∈ trimStr s, c ∈ s := by
  intro c hc
  unfold trimStr at hc
  rw [List.mem_reverse] at hc
  have h1 := (List.dropWhile_suffix (α := Char) Char.isWhitespace).sublist.subset hc
  rw [List.mem_reverse] at h1
  exact (List.dropWhile_suffix (α := Char) Char.isWhitespace).sublist.subset h1

theorem joinSpace_chars :
    ∀ (ws : List (List Char)) (c : Char), c ∈ joinSpace ws → c = ' ' ∨ ∃ w ∈ ws, c ∈ w := by
  intro ws
  induction ws with
  | nil =>
    intro c hc
    exact absurd hc (List.not_mem_nil c)
  | cons w ws ih =>
    intro c hc
    cases ws with
    | nil =>
      exact Or.inr ⟨w, List.mem_singleton_self w, hc⟩
    | cons w1 ws1 =>
      rw [show joinSpace (w :: w1 :: ws1) = w ++ ' ' :: joinSpace (w1 :: ws1) from rfl]
        at hc
      rcases List.mem_append.1 hc with h | h
      · exact Or.inr ⟨w, List.mem_cons_self _ _, h⟩
      · rcases List.mem_cons.1 h with h' | h'
        · exact Or.inl h'
        · rcases ih c h' with h'' | ⟨w2, hw2, hcw2⟩
          · exact Or.inl h''
          · exact Or.inr ⟨w2, List.mem_cons_of_mem _ hw2, hcw2⟩

theorem applyOverlap_chars (cur s : List Char) (c : Char) :
    c ∈ applyOverlap cur s → c = ' ' ∨ c ∈ cur ∨ c ∈ s := by
  intro hc
  unfold applyOverlap at hc
  rcases List.mem_append.1 hc with h | h
  · rcases joinSpace_chars _ c h with h' | ⟨w, hw, hcw⟩
    · exact Or.inl h'
    · have hw' : w ∈ cur.splitOnP (fun c => c == ' ') :=
        (List.drop_suffix _ _).sublist.subset hw
      exact Or.inr (Or.inl (splitOnP_mem_sound _ cur w hw' c hcw).2)
  · rcases List.mem_cons.1 h with h' | h'
    · exact Or.inl h'
    · exact Or.inr (Or.inr h')

theorem potentialChunk_chars (cur s : List Char) (c : Char) :
    c ∈ potentialChunk cur s → c = ' ' ∨ c ∈ cur ∨ c ∈ s := by
  intro hc
  unfold potentialChunk at hc
  split at hc
  · exact Or.inr (Or.inr hc)
  · rcases List.mem_append.1 hc with h | h
    · exact Or.inr (Or.inl h)
    · rcases List.mem_cons.1 h with h' | h'
      · exact Or.inl h'
      · exact Or.inr (Or.inr h')

/-- No character of `s` is a sentence delimiter. -/
def NoDelim (s : List Char) : Prop := ∀ c ∈ s, isDelim c = false

theorem noDelim_trimStr {s : List Char} (h : NoDelim s) : NoDelim (trimStr s) :=
  fun c hc => h c (trimStr_subset s c hc)

theorem noDelim_applyOverlap {cur s : List Char} (h1 : NoDelim cur) (h2 : NoDelim s) :
    NoDelim (applyOverlap cur s) := by
  intro c hc
  rcases applyOverlap_chars cur s c hc with rfl | h | h
  · rfl
  · exact h1 c h
  · exact h2 c h

theorem noDelim_potentialChunk {cur s : List Char} (h1 : NoDelim cur) (h2 : NoDelim s) :
    NoDelim (potentialChunk cur s) := by
  intro c hc
  rcases potentialChunk_chars cur s c hc with rfl | h | h
  · rfl
  · exact h1 c h
  · exact h2 c h

theorem chunksLoop_noDelim :
    ∀ (rest : List (List Char)) (cur : List Char) (acc : List (List Char)),
      (∀ s ∈ rest, NoDelim s) → NoDelim cur → (∀ c ∈ acc, NoDelim c) →
      ∀ c ∈ chunksLoop rest cur acc, NoDelim c := by
  intro rest
  induction rest with
  | nil =>
    intro cur acc _ hcur hacc c hc
    unfold chunksLoop at hc
    split at hc
    · rcases List.mem_append.1 hc with h | h
      · exact hacc c h
      · rw [List.mem_singleton.1 h]
        exact noDelim_trimStr hcur
    · exact hacc c hc
  | cons s rest ih =>
    intro cur acc hmem hcur hacc c hc
    unfold chunksLoop at hc
    split at hc
    · refine ih (applyOverlap cur s) (acc ++ [trimStr cur]) ?_ ?_ ?_ c hc
      · intro t ht
        exact hmem t (List.mem_cons_of_mem _ ht)
      · exact noDelim_applyOverlap hcur (hmem s (List.mem_cons_self _ _))
      · intro d hd
        rcases List.mem_append.1 hd with h1 | h1
        · exact hacc d h1
        · rw [List.mem_singleton.1 h1]
          exact noDelim_trimStr hcur
    · refine ih (potentialChunk cur s) acc ?_ ?_ hacc c hc
      · intro t ht
        exact hmem t (List.mem_cons_of_mem _ ht)
      · exact noDelim_potentialChunk hcur (hmem s (List.mem_cons_self _ _))

/-- C10 (amended): every chunk's content is free of the sentence delimiters
`.`, `!`, `?`, and consequently any document whose content contains at least
one delimiter character is not reconstructed by concatenating its chunks.
(The claim's unconditional "never reconstructs" is refuted by delimiter-free
documents, see the counterexample.) -/
theorem createChunks_delimiter_free_amended (text : List Char) :
    (∀ c ∈ createChunks text, ∀ ch ∈ c, isDelim ch = false) ∧
    ((∃ ch ∈ text, isDelim ch = true) → (createChunks text).flatten ≠ text) := by
  have hmain : ∀ c ∈ createChunks text, NoDelim c := by
    refine chunksLoop_noDelim (splitIntoSentences text) [] [] ?_ ?_ ?_
    · intro s hs
      intro c hc
      have hs1 : s ∈ (text.splitOnP isDelim).map trimStr := (List.mem_filter.1 hs).1
      obtain ⟨w, hw, hws⟩ := List.mem_map.1 hs1
      rw [← hws] at hc
      exact (splitOnP_mem_sound isDelim text w hw c (trimStr_subset w c hc)).1
    · intro c hc
      exact absurd hc (List.not_mem_nil c)
    · intro c hc
      exact absurd hc (List.not_mem_nil c)
  refine ⟨hmain, ?_⟩
  rintro ⟨ch, hcht, hchd⟩ heq
  rw [← heq] at hcht
  obtain ⟨c, hc, hchc⟩ := List.mem_flatten.1 hcht
  rw [hmain c hc ch hchc] at hchd
  exact Bool.false_ne_true hchd

/-- Witness for `createChunks_delimiter_free_amended`: the document
`"a.b"` contains a delimiter, so its chunk concatenation differs from it. -/
theorem createChunks_delimiter_free_witness :
    (createChunks ['a', '.', 'b']).flatten ≠ ['a', '.', 'b'] :=
  (createChunks_delimiter_free_amended ['a', '.', 'b']).2 ⟨'.', by decide, by decide⟩

/-- C10 counterexample: for the delimiter-free document `"hello"` the
concatenation of the chunks is exactly the original text, refuting the
claim's unconditional "the concatenation of a document's chunks does not
reconstruct the document's original text". -/
theorem createChunks_reconstruct_cex :
    (createChunks "hello".toList).flatten = "hello".toList ∧
    createChunks "hello".toList = ["hello".toList] := by
  decide

/-! ## Vector index (`InMemoryVectorStore.search`)

The source computes, for every stored chunk in insertion order, its cosine
similarity to the query embedding (an IEEE-double computation, abstracted
here as an arbitrary rational-valued score function `sim`), sorts the scored
list descending with JavaScript's stable `Array.prototype.sort`, and takes
the first `topK` entries. -/

/-- A chunk paired with its similarity score (the element type of the
`similarities` array in `InMemoryVectorStore.search`). -/
structure Scored (α : Type) where
  item : α
  similarity : ℚ

/-- Stable insertion into a descending-sorted list: an element moves past
exactly the entries with strictly greater similarity, so equal similarities
keep their original relative order — the behaviour guaranteed for
JavaScript's `sort` with comparator `(a, b) => b.similarity - a.similarity`. -/
def insertByDesc (x : Scored α) : List (Scored α) → List (Scored α)
  | [] => [x]
  | y :: ys =>
    if y.similarity ≤ x.similarity then x :: y :: ys else y :: insertByDesc x ys

/-- Stable sort by similarity descending. -/
def sortBySimDesc : List (Scored α) → List (Scored α)
  | [] => []
  | x :: xs => insertByDesc x (sortBySimDesc xs)

/-- Method `InMemoryVectorStore.search`: score every stored chunk, sort descending
(stable), take the first `topK`. -/
def search (chunks : List α) (sim : α → ℚ) (topK : Nat) : List (Scored α) :=
  (sortBySimDesc (chunks.map (fun c => Scored.mk c (sim c)))).take topK

/-- Result-order relation claimed for `search` over index-tagged chunks:
strictly greater similarity first, ties resolved by smaller insertion
index. -/
def RankedBefore {β : Type} (a b : Scored (Nat × β)) : Prop :=
  b.similarity < a.similarity ∨
  (a.similarity = b.similarity ∧ a.item.1 < b.item.1)

theorem insertByDesc_perm (x : Scored α) (l : List (Scored α)) :
    (insertByDesc x l).Perm (x :: l) := by
  induction l with
  | nil => exact List.Perm.refl _
  | cons y ys ih =>
    unfold insertByDesc
    split
    · exact List.Perm.refl _
    · exact (ih.cons y).trans (List.Perm.swap x y ys)

theorem sortBySimDesc_perm (l : List (Scored α)) : (sortBySimDesc l).Perm l := by
  induction l with
  | nil => exact List.Perm.refl _
  | cons x xs ih =>
    exact (insertByDesc_perm x (sortBySimDesc xs)).trans (ih.cons x)

theorem insertByDesc_pairwise {β : Type} (x : Scored (Nat × β))
    (l : List (Scored (Nat × β))) (hl : l.Pairwise RankedBefore)
    (hx : ∀ y ∈ l, x.item.1 < y.item.1) :
    (insertByDesc x l).Pairwise RankedBefore := by
  induction l with
  | nil => simp [insertByDesc]
  | cons y ys ih =>
    have hys := List.pairwise_cons.1 hl
    unfold insertByDesc
    split
    case isTrue h =>
      refine List.pairwise_cons.2 ⟨?_, hl⟩
      intro z hz
      rcases List.mem_cons.1 hz with rfl | hzys
      · rcases lt_or_eq_of_le h with hlt | heq
        · exact Or.inl hlt
        · exact Or.inr ⟨heq.symm, hx z (List.mem_cons_self _ _)⟩
      · rcases hys.1 z hzys with h1 | ⟨h1, _⟩
        · exact Or.inl (lt_of_lt_of_le h1 h)
        · rcases lt_or_eq_of_le h with hlt | heq
          · exact Or.inl (h1 ▸ hlt)
          · exact Or.inr ⟨heq.symm.trans h1, hx z (List.mem_cons_of_mem _ hzys)⟩
    case isFalse h =>
      refine List.pairwise_cons.2
        ⟨?_, ih hys.2 (fun z hz => hx z (List.mem_cons_of_mem _ hz))⟩
      intro z hz
      have hz' := (insertByDesc_perm x ys).mem_iff.1 hz
      rcases List.mem_cons.1 hz' with rfl | hzys
      · exact Or.inl (lt_of_not_le h)
      · exact hys.1 z hzys

theorem sortBySimDesc_pairwise {β : Type} (l : List (Scored (Nat × β)))
    (hl : l.Pairwise (fun a b => a.item.1 < b.item.1)) :
    (sortBySimDesc l).Pairwise RankedBefore := by
  induction l with
  | nil => simp [sortBySimDesc]
  | cons x xs ih =>
    have h := List.pairwise_cons.1 hl
    exact insertByDesc_pairwise x _ (ih h.2)
      (fun y hy => h.1 y ((sortBySimDesc_perm xs).mem_iff.1 hy))

theorem enum_scored_pairwise {β : Type} (chunks : List β) (sim : Nat × β → ℚ) :
    (chunks.enum.map (fun c => Scored.mk c (sim c))).Pairwise
      (fun a b => a.item.1 < b.item.1) := by
  rw [List.pairwise_map]
  have h1 : (List.map Prod.fst chunks.enum).Pairwise (· < ·) := by
    rw [List.enum_map_fst]
    exact List.pairwise_lt_range _
  exact List.pairwise_map.1 h1

/-- C4: over index-tagged chunks, `search` returns at most `topK` results,
ordered by similarity descending with ties broken by insertion index
(stable sort); the sort is a permutation of the scored chunk list (no result
is fabricated or lost before truncation); and `search` over an empty index
returns the empty sequence. -/
theorem search_topk_sorted_stable {β : Type} (chunks : List β)
    (sim : Nat × β → ℚ) (topK : Nat) :
    (search chunks.enum sim topK).length ≤ topK ∧
    (search chunks.enum sim topK).Pairwise RankedBefore ∧
    (sortBySimDesc (chunks.enum.map (fun c => Scored.mk c (sim c)))).Perm
      (chunks.enum.map (fun c => Scored.mk c (sim c))) ∧
    search ([] : List (Nat × β)) sim topK = [] := by
  refine ⟨?_, ?_, sortBySimDesc_perm _, ?_⟩
  · simp [search] 
  · exact List.Pairwise.sublist (List.take_sublist _ _)
      (sortBySimDesc_pairwise _ (enum_scored_pairwise chunks sim))
  · simp [search, sortBySimDesc]

/-! ## RAG service (`RAGService`, `OpenAIEmbeddingProvider`)

Fallible external calls are modelled as `Except` outcomes passed in as
parameters; a caught exception corresponds to matching on `Except.error`. -/

/-- A search result as consumed by `RAGService.getRelevantContext`: the
matched chunk's content and its similarity score. -/
structure SearchResult where
  chunkContent : String
  similarity : ℚ
deriving DecidableEq, Repr

/-- The similarity threshold `0.1` of `RAGService.getRelevantContext`. -/
def minSimilarity : ℚ := 1 / 10

/-- One line of the context block: `[Context ${index + 1}] ${content}`. -/
def contextLine (i : Nat) (r : SearchResult) : String :=
  "[Context " ++ toString (i + 1) ++ "] " ++ r.chunkContent

/-- The result-formatting body of `RAGService.getRelevantContext`: return
`''` when the search produced no results, otherwise keep the results with
similarity strictly above `0.1`, number them in order, and join them with
blank lines. -/
def formatContextBody (results : List SearchResult) : String :=
  if results.length = 0 then ""
  else
    String.intercalate "\n\n"
      (List.mapIdx contextLine (results.filter (fun r => minSimilarity < r.similarity)))

/-- Method `OpenAIEmbeddingProvider.generateEmbedding`: on any upstream failure the
catch block substitutes a mock embedding (a 1536-entry pseudo-random vector,
abstracted as the `mockEmbedding` parameter) instead of rethrowing. -/
def generateEmbedding (apiOutcome : Except String (List ℚ))
    (mockEmbedding : List ℚ) : List ℚ :=
  match apiOutcome with
  | Except.ok v => v
  | Except.error _ => mockEmbedding

/-- The catch block of `InMemoryVectorStore.search`: any failure inside the
try block produces `[]` instead of an exception. -/
def vectorSearchRun (outcome : Except String (List SearchResult)) :
    List SearchResult :=
  match outcome with
  | Except.ok rs => rs
  | Except.error _ => []

/-- Method `RAGService.getRelevantContext`: when the service is uninitialized it
logs a warning and returns `''`; otherwise it runs the (non-throwing) vector
search and formats the results, with its own catch block also mapping any
failure to `''`.  The `Except` return type records whether the call throws
to its caller. -/
def getRelevantContextRun (initialized : Bool)
    (searchOutcome : Except String (List SearchResult)) : Except String String :=
  if initialized = false then Except.ok ""
  else Except.ok (formatContextBody (vectorSearchRun searchOutcome))

/-- Method `RAGService.searchDocuments`: throws `'RAG service not initialized'`
when uninitialized, otherwise forwards the vector-store search results. -/
def searchDocumentsRun (initialized : Bool)
    (searchResults : List SearchResult) : Except String (List SearchResult) :=
  if initialized = false then Except.error "RAG service not initialized"
  else Except.ok searchResults

/-! ### Uninitialized-service behaviour (C2) -/

/-- C2 counterexample: on an uninitialized service, `getRelevantContext`
returns the empty string as an ordinary value (`Except.ok ""`), not an
explicit "not initialized" error — refuting the claim that every query call
reports such an error and that `getRelevantContext` in particular does not
return the empty string. -/
theorem ragservice_uninitialized_cex :
    getRelevantContextRun false (Except.ok [SearchResult.mk "doc" 1]) =
      Except.ok "" := rfl

/-- C2 (amended): on an uninitialized service, `searchDocuments` throws the
explicit `'RAG service not initialized'` error, while `getRelevantContext`
silently returns the empty string for every search outcome. -/
theorem ragservice_uninitialized_amended :
    (∀ searchResults, searchDocumentsRun false searchResults =
      Except.error "RAG service not initialized") ∧
    (∀ searchOutcome, getRelevantContextRun false searchOutcome = Except.ok "") :=
  ⟨fun _ => rfl, fun _ => rfl⟩

/-! ### Similarity threshold (C7) -/

/-- C7 counterexample: a result whose similarity is exactly `0.1` — hence
not below the threshold — is excluded by the source's strict `> 0.1` filter,
so the returned context is empty rather than a numbered block containing
it. -/
theorem similarity_threshold_cex :
    ¬ ((1 : ℚ) / 10 < minSimilarity) ∧
    formatContextBody [SearchResult.mk "relevant" (1 / 10)] = "" := by
  constructor
  · exact lt_irrefl _
  · unfold formatContextBody
    rw [if_neg (by simp)]
    rw [List.filter_eq_nil_iff.2 ?_]
    · rfl
    · intro r hr
      rw [List.mem_singleton.1 hr]
      simp only [decide_eq_true_eq]
      exact lt_irrefl _

/-- C7 (amended): the context body equals the numbered, ordered block built
from exactly the results whose similarity is strictly above `0.1` (a result
survives the filter iff its similarity strictly exceeds the threshold — at
exactly `0.1` it is excluded), and the empty string is returned when no
result survives. -/
theorem similarity_threshold_amended (results : List SearchResult) :
    formatContextBody results =
      String.intercalate "\n\n"
        (List.mapIdx contextLine
          (results.filter (fun r => minSimilarity < r.similarity))) ∧
    (∀ r, r ∈ results.filter (fun r => minSimilarity < r.similarity) ↔
      r ∈ results ∧ minSimilarity < r.similarity) ∧
    ((∀ r ∈ results, r.similarity ≤ minSimilarity) →
      formatContextBody results = "") := by
  refine ⟨?_, ?_, ?_⟩
  · unfold formatContextBody
    split
    case isTrue h =>
      rw [List.length_eq_zero.1 h]
      rfl
    case isFalse h => rfl
  · intro r
    rw [List.mem_filter]
    simp
  · intro hall
    unfold formatContextBody
    split
    case isTrue h => rfl
    case isFalse h =>
      rw [List.filter_eq_nil_iff.2 ?_]
      · rfl
      · intro r hr
        simp only [decide_eq_true_eq]
        exact not_lt_of_le (hall r hr)

/-- Witness for `similarity_threshold_amended`: a single result at
similarity `0` is filtered out and the context is empty. -/
theorem similarity_threshold_witness :
    formatContextBody [SearchResult.mk "b" 0] = "" :=
  (similarity_threshold_amended [SearchResult.mk "b" 0]).2.2 (by
    intro r hr
    rw [List.mem_singleton.1 hr]
    norm_num [minSimilarity])

/-! ### Degraded retrieval never throws (C8) -/

/-- C8: `getRelevantContext` returns an ordinary string for every
initialization state and every search outcome (never an error to its
caller); an internal failure — in particular the vector search failing —
degrades to the empty context; and a failing embedding provider itself
degrades to the mock embedding instead of throwing. -/
theorem getRelevantContext_never_throws :
    (∀ (initialized : Bool) (searchOutcome : Except String (List SearchResult)),
      ∃ s, getRelevantContextRun initialized searchOutcome = Except.ok s) ∧
    (∀ e, getRelevantContextRun true (Except.error e) = Except.ok "") ∧
    (∀ e mockEmbedding, generateEmbedding (Except.error e) mockEmbedding =
      mockEmbedding) := by
  refine ⟨?_, fun _ => rfl, fun _ _ => rfl⟩
  intro initialized searchOutcome
  cases initialized
  · exact ⟨"", rfl⟩
  · exact ⟨formatContextBody (vectorSearchRun searchOutcome), rfl⟩

/-! ## Session store (`RedisMemoryStore`)

The Redis keyspace is modelled as a partial map from sessionId to the
stored, already-deserialized session; timestamps are abstract naturals. -/

/-- A chat message `{role, content, timestamp}`. -/
structure ChatMessage where
  role : String
  content : String
  timestamp : Nat
deriving DecidableEq, Repr

/-- A stored session.  `message_count` is the `metadata.message_count`
field maintained by `updateSession`. -/
structure SessionMemory where
  session_id : String
  messages : List ChatMessage
  created_at : Nat
  last_active : Nat
  message_count : Nat
deriving DecidableEq, Repr

/-- The session keyspace. -/
def SessionStore : Type := String → Option SessionMemory

/-- Method `RedisMemoryStore.getSession`: one `GET` of the session key (JSON
deserialization failure is already modelled by `none`). -/
def getSession (store : SessionStore) (sessionId : String) :
    Option SessionMemory :=
  store sessionId

/-- The in-place mutation performed by `RedisMemoryStore.updateSession`
before persisting: refresh `last_active` and set `metadata.message_count`
to the length of `messages`. -/
def updateSessionPure (now : Nat) (session : SessionMemory) : SessionMemory :=
  { session with last_active := now, message_count := session.messages.length }

/-- Method `RedisMemoryStore.updateSession`: persist the refreshed session under
its key (`setEx`; the 86400-second TTL and the `sAdd` to the session index
do not affect the verified properties). -/
def updateSession (store : SessionStore) (sessionId : String)
    (session : SessionMemory) (now : Nat) : SessionStore :=
  fun k => if k = sessionId then some (updateSessionPure now session) else store k

/-- The fresh session built by `addMessage` for an unseen sessionId. -/
def freshSession (sessionId : String) (now : Nat) : SessionMemory :=
  { session_id := sessionId, messages := [], created_at := now,
    last_active := now, message_count := 0 }

/-- The read phase of `RedisMemoryStore.addMessage`, up to its first
`await`: load the session, or create a fresh one if absent. -/
def addMessageRead (store : SessionStore) (sessionId : String) (now : Nat) :
    SessionMemory :=
  (getSession store sessionId).getD (freshSession sessionId now)

/-- The write phase of `RedisMemoryStore.addMessage`: append the message to
the session read earlier and persist via `updateSession`. -/
def addMessageWrite (store : SessionStore) (sessionId : String)
    (session : SessionMemory) (message : ChatMessage) (now : Nat) : SessionStore :=
  updateSession store sessionId
    { session with messages := session.messages ++ [message] } now

/-- Method `RedisMemoryStore.addMessage` executed without interleaving: the write
phase applied to the read phase's result. -/
def addMessage (store : SessionStore) (sessionId : String)
    (message : ChatMessage) (now : Nat) : SessionStore :=
  addMessageWrite store sessionId (addMessageRead store sessionId now) message now

/-- JavaScript `messages.slice(-limit)` for a `Nat` limit: `-0` is `0`, so
limit `0` yields a copy of the whole array; otherwise the last `limit`
entries in order. -/
def jsSliceNeg (xs : List α) (limit : Nat) : List α :=
  if limit = 0 then xs else xs.drop (xs.length - limit)

/-- Method `RedisMemoryStore.getRecentMessages`: `[]` for an unseen session,
otherwise `session.messages.slice(-limit)`. -/
def getRecentMessages (store : SessionStore) (sessionId : String)
    (limit : Nat) : List ChatMessage :=
  match getSession store sessionId with
  | none => []
  | some s => jsSliceNeg s.messages limit

/-! ### Lost update under concurrency (C1) -/

/-- The store before any request. -/
def emptyStore : SessionStore := fun _ => none

/-- An admissible interleaving of two concurrent `addMessage` calls for the
same sessionId: both `getSession` reads complete before either
`updateSession` write (read₁ read₂ write₁ write₂).  Every `await` in the
source is a suspension point and no transaction or per-key lock guards the
read-modify-write cycle, so this schedule can occur. -/
def lostUpdateRun (sessionId : String) (m1 m2 : ChatMessage) (now : Nat) :
    SessionStore :=
  let r1 := addMessageRead emptyStore sessionId now
  let r2 := addMessageRead emptyStore sessionId now
  let st1 := addMessageWrite emptyStore sessionId r1 m1 now
  let st2 := addMessageWrite st1 sessionId r2 m2 now
  st2

/-- C1 (code bug): under the read-read-write-write interleaving, two
successfully completed concurrent `addMessage` calls leave the session with
the single message `[m2]` and `message_count` 1 — the first append is
silently overwritten, contradicting the spec's atomicity requirement and the
repository's own development notes (which claim WATCH/MULTI/EXEC
transactions were implemented; the code has none). -/
theorem addMessage_lost_update_bug (sessionId : String) (m1 m2 : ChatMessage)
    (now : Nat) :
    ∃ s, lostUpdateRun sessionId m1 m2 now sessionId = some s ∧
      s.messages = [m2] ∧ s.message_count = 1 := by
  refine ⟨updateSessionPure now
    { freshSession sessionId now with messages := [m2] }, ?_, rfl, rfl⟩
  simp [lostUpdateRun, addMessageWrite, addMessageRead, updateSession,
    getSession, emptyStore, freshSession]

/-! ### `message_count` invariant (C5) -/

/-- C5: after every successful `updateSession` and after every successful
`addMessage`, the session persisted under the key carries
`message_count` equal to the length of its `messages` sequence. -/
theorem session_message_count_invariant (store : SessionStore)
    (sessionId : String) (session : SessionMemory) (message : ChatMessage)
    (now : Nat) :
    (∃ s, updateSession store sessionId session now sessionId = some s ∧
      s.message_count = s.messages.length) ∧
    (∃ s, addMessage store sessionId message now sessionId = some s ∧
      s.message_count = s.messages.length) := by
  constructor
  · exact ⟨updateSessionPure now session, by simp [updateSession], rfl⟩
  · exact ⟨updateSessionPure now
      { addMessageRead store sessionId now with
        messages := (addMessageRead store sessionId now).messages ++ [message] },
      by simp [addMessage, addMessageWrite, updateSession], rfl⟩

/-! ### Recent messages (C9) -/

/-- The single message of the example session. -/
def msgA : ChatMessage := { role := "user", content := "hi", timestamp := 1 }

/-- An example stored session holding one message. -/
def sessOne : SessionMemory :=
  { session_id := "s1", messages := [msgA], created_at := 0, last_active := 0,
    message_count := 1 }

/-- A store holding exactly `sessOne` under key `"s1"`. -/
def storeOne : SessionStore := fun k => if k = "s1" then some sessOne else none

/-- C9 counterexample: at `limit = 0`, `slice(-limit)` is `slice(0)`, a copy
of the full array, so `getRecentMessages` returns every message instead of
the most recent zero messages — refuting the claim's "for every limit". -/
theorem getRecentMessages_limit_zero_cex :
    getRecentMessages storeOne "s1" 0 = [msgA] ∧
    ([msgA] : List ChatMessage) ≠ [] := by
  constructor
  · rfl
  · simp

/-- C9 (amended): for every positive `limit`, `getRecentMessages` returns a
suffix of the stored message sequence — the most recent messages in
chronological order — of length `min limit (length messages)`, and returns
the empty sequence for an unseen sessionId.  (At `limit = 0` the code
instead returns the entire message list.) -/
theorem getRecentMessages_amended (store : SessionStore) (sessionId : String)
    (limit : Nat) (hlim : 1 ≤ limit) :
    (∀ s, getSession store sessionId = some s →
      getRecentMessages store sessionId limit <:+ s.messages ∧
      (getRecentMessages store sessionId limit).length =
        min limit s.messages.length) ∧
    (getSession store sessionId = none →
      getRecentMessages store sessionId limit = []) := by
  constructor
  · intro s hs
    have hne : limit ≠ 0 := Nat.one_le_iff_ne_zero.1 hlim
    simp only [getRecentMessages, hs]
    unfold jsSliceNeg
    rw [if_neg hne]
    refine ⟨List.drop_suffix _ _, ?_⟩
    rw [List.length_drop]
    omega
  · intro hs
    simp only [getRecentMessages, hs]

/-- Witness for `getRecentMessages_amended` on `storeOne` at limit 1. -/
theorem getRecentMessages_amended_witness :
    getRecentMessages storeOne "s1" 1 <:+ sessOne.messages ∧
    (getRecentMessages storeOne "s1" 1).length = min 1 sessOne.messages.length :=
  (getRecentMessages_amended storeOne "s1" 1 (by decide)).1 sessOne rfl

/-! ## Plugin router (`DefaultPluginRegistry`, `PluginManager`)

The registry is a JavaScript `Map` keyed by plugin name; `Map` iteration is
key-insertion order, and `set` on an existing key replaces the value while
keeping its position.  A plugin's classifier is its `canHandle` predicate;
the result of `execute` is abstracted as a plain string payload. -/

/-- The request-scoped plugin context `{sessionId, userMessage}`. -/
structure PluginContext where
  sessionId : String
  userMessage : String

/-- A registered plugin. -/
structure Plugin where
  name : String
  description : String
  canHandle : String → Bool
  execute : PluginContext → String

/-- Method `DefaultPluginRegistry.register` = `Map.set(plugin.name, plugin)`:
replace in place when the name is present, else append. -/
def register (r : List Plugin) (p : Plugin) : List Plugin :=
  if r.any (fun q => q.name == p.name) then
    r.map (fun q => if q.name == p.name then p else q)
  else r ++ [p]

/-- Registering a list of plugins in order into an empty registry (as
`PluginManager.initializePlugins` does with Weather then Math). -/
def registerAll (ps : List Plugin) : List Plugin := ps.foldl register []

/-- Method `DefaultPluginRegistry.getPlugin`: the first plugin in map-iteration
order whose `canHandle` accepts the input, or none. -/
def getPlugin (r : List Plugin) (input : String) : Option Plugin :=
  r.find? (fun p => p.canHandle input)

/-- Method `PluginManager.processMessage`: route the user message; when a plugin
matches, exactly that plugin's `execute` runs (the returned pair names the
executed plugin and its result); otherwise no `execute` runs. -/
def processMessage (r : List Plugin) (ctx : PluginContext) :
    Option (String × String) :=
  (getPlugin r ctx.userMessage).map (fun p => (p.name, p.execute ctx))

theorem foldl_register_eq (ps : List Plugin) :
    ∀ acc : List Plugin,
      (∀ p ∈ ps, ∀ q ∈ acc, ¬ q.name = p.name) →
      ps.Pairwise (fun p q => p.name ≠ q.name) →
      ps.foldl register acc = acc ++ ps := by
  induction ps with
  | nil =>
    intro acc _ _
    simp
  | cons p ps ih =>
    intro acc hacc hpw
    have hpw' := List.pairwise_cons.1 hpw
    have hreg : register acc p = acc ++ [p] := by
      unfold register
      rw [if_neg ?_]
      intro hany
      obtain ⟨q, hq, hbeq⟩ := List.any_eq_true.1 hany
      exact hacc p (List.mem_cons_self _ _) q hq (beq_iff_eq.1 hbeq)
    rw [List.foldl_cons, hreg, ih (acc ++ [p]) ?_ hpw'.2]
    · simp
    · intro p1 hp1 q hq
      rcases List.mem_append.1 hq with h | h
      · exact hacc p1 (List.mem_cons_of_mem _ hp1) q h
      · rw [List.mem_singleton.1 h]
        exact hpw'.1 p1 hp1

theorem registerAll_eq (ps : List Plugin)
    (h : ps.Pairwise (fun p q => p.name ≠ q.name)) : registerAll ps = ps := by
  unfold registerAll
  rw [foldl_register_eq ps [] (by simp) h]
  simp

theorem find?_first_match {α : Type} (p : α → Bool) :
    ∀ (pre : List α) (x : α) (post : List α),
      (∀ q ∈ pre, p q = false) → p x = true →
      List.find? p (pre ++ x :: post) = some x := by
  intro pre
  induction pre with
  | nil =>
    intro x post _ hx
    rw [List.nil_append]
    exact List.find?_cons_of_pos _ hx
  | cons a pre ih =>
    intro x post hpre hx
    rw [List.cons_append, List.find?_cons_of_neg _ ?_]
    · exact ih x post (fun q hq => hpre q (List.mem_cons_of_mem _ hq)) hx
    · rw [hpre a (List.mem_cons_self _ _)]
      exact Bool.false_ne_true

/-- C6: for plugins registered in order with pairwise-distinct names (as the
manager's Weather-then-Math registration is), routing a message executes
exactly the first-registered plugin whose `canHandle` accepts it — in
particular when an earlier and a later plugin both match, the earlier one's
`execute` runs — and executes no plugin when none matches.  `processMessage`
returns at most one executed plugin by construction. -/
theorem plugin_first_match (ps : List Plugin) (ctx : PluginContext)
    (hnames : ps.Pairwise (fun p q => p.name ≠ q.name)) :
    (∀ pre p post, ps = pre ++ p :: post →
      p.canHandle ctx.userMessage = true →
      (∀ q ∈ pre, q.canHandle ctx.userMessage = false) →
      processMessage (registerAll ps) ctx = some (p.name, p.execute ctx)) ∧
    ((∀ p ∈ ps, p.canHandle ctx.userMessage = false) →
      processMessage (registerAll ps) ctx = none) := by
  constructor
  · intro pre p post hdecomp hp hpre
    unfold processMessage getPlugin
    rw [registerAll_eq ps hnames, hdecomp,
      find?_first_match _ pre p post hpre hp]
    rfl
  · intro hall
    unfold processMessage getPlugin
    rw [registerAll_eq ps hnames, List.find?_eq_none.2 ?_]
    · rfl
    · intro x hx hpx
      rw [hall x hx] at hpx
      exact Bool.false_ne_true hpx

/-- A weather-like plugin that matches every message. -/
def weatherish : Plugin :=
  { name := "weather", description := "weather info",
    canHandle := fun _ => true, execute := fun _ => "weather-result" }

/-- A math-like plugin that also matches every message. -/
def mathish : Plugin :=
  { name := "math", description := "math info",
    canHandle := fun _ => true, execute := fun _ => "math-result" }

/-- A message both plugins would match. -/
def bothCtx : PluginContext :=
  { sessionId := "s", userMessage := "weather and 2+2" }

/-- Witness for `plugin_first_match`: with two always-matching plugins
registered in order, only the first-registered one's `execute` runs. -/
theorem plugin_first_match_witness :
    processMessage (registerAll [weatherish, mathish]) bothCtx =
      some (weatherish.name, weatherish.execute bothCtx) :=
  (plugin_first_match [weatherish, mathish] bothCtx
      (by simp [List.pairwise_cons, weatherish, mathish])).1
    [] weatherish [mathish] rfl rfl
    (fun q hq => absurd hq (List.not_mem_nil q))

end ContextAgent
